import Mathlib

/-!
Verification of the persistence + validation core of the `youtube-automator`
repository (files `src/busca_noticias.py` and `src/valida_json.py`).

The Python code is shallowly embedded: Python `dict` news records become the
structure `Noticia`, Python sets of key tuples become lists of `Chave` with
membership tests, the news-directory filesystem becomes a function from date
strings to file contents, and the standard-library `json.loads`/`json.dump`
calls are modelled by an executable JSON parser/serializer over the inductive
type `Json` (numbers restricted to integers, which covers every record field
the program produces).  Functions keep the names of the Python functions they
embed.
-/

/-! ## Python string primitives used by `busca_noticias.py` -/

/-- The whitespace characters recognised by Python's `str.strip()` (ASCII
range, which is what the feed data contains). -/
def pyEspaco (c : Char) : Bool :=
  c == ' ' || c == '\t' || c == '\n' || c == '\r' || c == '\x0b' || c == '\x0c'

/-- Python `str.strip()`: drop leading and trailing whitespace. -/
def pyStrip (s : String) : String :=
  String.mk (((s.data.dropWhile pyEspaco).reverse.dropWhile pyEspaco).reverse)

/-- Python `str.lower()` (ASCII case mapping, which covers the normalisation
the dedup key needs). -/
def pyLower (s : String) : String :=
  String.mk (s.data.map Char.toLower)

/-! ## Data model: the canonical news record

`busca_noticias.py` builds records as dicts with the six keys
`id, titulo, conteudo, fonte, data, url` (the spec's richer collector variant
also carries `imagem`; this variant leaves it empty).  A persisted record
always has all of these keys, so the dict is embedded as a structure. -/

structure Noticia where
  id : String
  titulo : String
  conteudo : String
  fonte : String
  data : String
  url : String
  imagem : String
deriving DecidableEq, Repr

/-- The natural dedup key type: (normalised title, trimmed source, date). -/
abbrev Chave := String × String × String

/-- The natural key built in `salvar_noticias` (lines 180–183 and 189–192):
`titulo.strip().lower()`, `fonte.strip()`, `data` taken exactly. -/
def chave (n : Noticia) : Chave :=
  (pyLower (pyStrip n.titulo), pyStrip n.fonte, n.data)

/-! ## Merge-Store: `salvar_noticias` (busca_noticias.py lines 148–205) -/

/-- The loop of lines 188–196: iterate the new records in order, admit one
only if its key is in neither the existing-keys set nor the set of keys of
records admitted earlier in this same batch (`novas_keys`, accumulated as the
loop runs).  Python's `set` is embedded as a list with membership. -/
def processaNovas (existentesKeys : List Chave) :
    List Noticia → List Chave → List Noticia
  | [], _ => []
  | n :: resto, novasKeys =>
    if chave n ∉ existentesKeys ∧ chave n ∉ novasKeys then
      n :: processaNovas existentesKeys resto (chave n :: novasKeys)
    else
      processaNovas existentesKeys resto novasKeys

/-- Lines 177–199 for one date partition: build `existentes_keys` from the
records already on disk, filter the new batch through `processaNovas`, and
concatenate (`noticias_combinadas = noticias_existentes + novas_sem_duplicatas`). -/
def salvarCombinadas (existentes novas : List Noticia) : List Noticia :=
  existentes ++ processaNovas (existentes.map chave) novas []

/-- Outcome of reading the existing partition file (lines 163–175):
the file may be absent, unreadable / not valid JSON (the `except` branch),
parse to a non-list value (the `isinstance` check), or parse to a list. -/
inductive LeituraExistente where
  | arquivoAusente
  | erroLeitura
  | conteudoNaoLista
  | lista (noticias : List Noticia)
deriving Repr

/-- Lines 163–175: every outcome other than a successfully parsed list makes
`noticias_existentes` the empty list. -/
def noticiasExistentes : LeituraExistente → List Noticia
  | .arquivoAusente => []
  | .erroLeitura => []
  | .conteudoNaoLista => []
  | .lista ns => ns

/-- The whole body of the per-date loop, producing the content written for
that date. -/
def salvarData (leitura : LeituraExistente) (novas : List Noticia) : List Noticia :=
  salvarCombinadas (noticiasExistentes leitura) novas

/-- The news directory: one (possibly absent / corrupt) file per date. -/
abbrev Arquivos := String → LeituraExistente

/-- Whole-file overwrite of one date's partition file. -/
def escreveArquivo (arquivos : Arquivos) (d : String) (conteudo : List Noticia) :
    Arquivos :=
  fun d' => if d' = d then .lista conteudo else arquivos d'

/-- `salvar_noticias` over all date partitions (the `for data, noticias in
agrupadas.items()` loop).  `falhaEscrita d = true` embeds an I/O error raised
by the write of date `d`'s file: the `except` of lines 204–205 swallows it and
the loop continues with the next date, leaving that file as it was. -/
def salvar_noticias (falhaEscrita : String → Bool) :
    List (String × List Noticia) → Arquivos → Arquivos
  | [], arquivos => arquivos
  | (d, ns) :: resto, arquivos =>
    let combinadas := salvarData (arquivos d) ns
    let arquivos' := if falhaEscrita d then arquivos else escreveArquivo arquivos d combinadas
    salvar_noticias falhaEscrita resto arquivos'

/-! ## Grouper: `agrupar_noticias_por_data` (busca_noticias.py lines 130–146)

The Python dict keyed by date is embedded as an association list in key
insertion order: a new date is appended at the end with a singleton group, an
existing date has the record appended to its group. -/

/-- One iteration of the grouping loop (lines 141–145). -/
def insereAgrupada (n : Noticia) : List (String × List Noticia) → List (String × List Noticia)
  | [] => [(n.data, [n])]
  | (d, grupo) :: resto =>
    if d = n.data then (d, grupo ++ [n]) :: resto
    else (d, grupo) :: insereAgrupada n resto

/-- `agrupar_noticias_por_data`: fold the records, in order, into the map. -/
def agrupar_noticias_por_data (noticias : List Noticia) : List (String × List Noticia) :=
  noticias.foldl (fun ag n => insereAgrupada n ag) []

/-! ## Textual JSON repair: `tentar_corrigir_json` (valida_json.py lines 35–47)

The Python body is `re.sub(r",\s*([}\]])", r"\1", conteudo)`: scanning left to
right, every comma followed by (possibly empty) whitespace and then `}` or `]`
is replaced, together with that whitespace, by the closing character alone,
and scanning resumes after the closer.  `\s` is embedded for the ASCII
whitespace class. -/

/-- The regex whitespace class `\s` (ASCII range). -/
def ehEspaco (c : Char) : Bool :=
  c == ' ' || c == '\t' || c == '\n' || c == '\r' || c == '\x0b' || c == '\x0c'

/-- The character class `[}\]]` of the regex. -/
def ehFechamento (c : Char) : Bool :=
  c == '\x7d' || c == ']'

/-- The left-to-right scan of `re.sub(r",\s*([}\]])", r"\1", ·)` over the
characters.  At a comma whose first following non-whitespace character is a
closer, the match `,\s*([}\]])` is replaced by the closer (`headD 'x'` reads
that closer; the default is never returned in the taken branch, since
`ehFechamento 'x' = false` forces the else branch when everything after the
comma is whitespace).  Matches never overlap — the span between a matched
comma and its closer holds only whitespace — so this scan is exactly the
non-overlapping leftmost-match semantics of `re.sub`. -/
def corrigeLista : List Char → List Char
  | [] => []
  | c :: resto =>
    if c == ',' && ehFechamento ((resto.dropWhile ehEspaco).headD 'x') then
      (resto.dropWhile ehEspaco).headD 'x' :: corrigeLista (resto.dropWhile ehEspaco).tail
    else c :: corrigeLista resto
termination_by l => l.length
decreasing_by
  · have h1 : (resto.dropWhile ehEspaco).length ≤ resto.length :=
      (resto.dropWhile_suffix ehEspaco).sublist.length_le
    simp
    omega
  · simp

/-- `tentar_corrigir_json`: the regex substitution applied to the whole file
content. -/
def tentar_corrigir_json (conteudo : String) : String :=
  String.mk (corrigeLista conteudo.data)

/-- Whether the text contains an occurrence of the regex pattern
`,\s*[}\]]`: some comma whose next non-whitespace character is `}` or `]`. -/
def temPadrao : List Char → Bool
  | [] => false
  | c :: resto =>
    (c == ',' && ehFechamento ((resto.dropWhile ehEspaco).headD 'x')) || temPadrao resto

/-! ## JSON values, `json.loads` and `json.dump`

`valida_json.py` manipulates whole JSON documents through the standard
library.  The document model: numbers are restricted to integers (the only
numbers the program ever writes; floating point is outside the embedding). -/

inductive Json where
  | null
  | bool (b : Bool)
  | num (n : Int)
  | str (s : String)
  | arr (itens : List Json)
  | obj (campos : List (String × Json))
deriving Repr

/-- JSON inter-token whitespace accepted by `json.loads`. -/
def jsonEspaco (c : Char) : Bool :=
  c == ' ' || c == '\t' || c == '\n' || c == '\r'

/-- Decimal digit. -/
def ehDigito (c : Char) : Bool :=
  '0' ≤ c && c ≤ '9'

/-- Accumulate the digits of a literal integer. -/
def lerDigitos (acc : Nat) : List Char → Nat × List Char
  | c :: resto =>
    if ehDigito c then lerDigitos (acc * 10 + (c.toNat - '0'.toNat)) resto
    else (acc, c :: resto)
  | [] => (acc, [])

/-- Parse the body of a string literal after the opening quote, handling the
escape sequences `json.loads` accepts (`\uXXXX` is mapped through the code
point). -/
def lerLiteral (fuel : Nat) (acc : List Char) (cs : List Char) :
    Option (String × List Char) :=
  match fuel, cs with
  | 0, _ => none
  | _, [] => none
  | fuel + 1, c :: resto =>
    if c == '"' then some (String.mk acc.reverse, resto)
    else if c == '\\' then
      match resto with
      | [] => none
      | e :: resto2 =>
        if e == '"' then lerLiteral fuel ('"' :: acc) resto2
        else if e == '\\' then lerLiteral fuel ('\\' :: acc) resto2
        else if e == '/' then lerLiteral fuel ('/' :: acc) resto2
        else if e == 'b' then lerLiteral fuel ('\x08' :: acc) resto2
        else if e == 'f' then lerLiteral fuel ('\x0c' :: acc) resto2
        else if e == 'n' then lerLiteral fuel ('\n' :: acc) resto2
        else if e == 'r' then lerLiteral fuel ('\r' :: acc) resto2
        else if e == 't' then lerLiteral fuel ('\t' :: acc) resto2
        else none
    else lerLiteral fuel (c :: acc) resto

mutual

/-- Recursive-descent parser embedding `json.loads`: parse one JSON value
starting at the first non-whitespace character, returning it with the
remaining input.  Strict grammar: no trailing commas. -/
def lerValor : Nat → List Char → Option (Json × List Char)
  | 0, _ => none
  | fuel + 1, cs =>
    match cs.dropWhile jsonEspaco with
    | [] => none
    | c :: resto =>
      if c == '\x7b' then
        match (resto.dropWhile jsonEspaco) with
        | '\x7d' :: resto2 => some (Json.obj [], resto2)
        | _ => lerCampos fuel resto []
      else if c == '[' then
        match (resto.dropWhile jsonEspaco) with
        | ']' :: resto2 => some (Json.arr [], resto2)
        | _ => lerItens fuel resto []
      else if c == '"' then
        match lerLiteral (resto.length + 1) [] resto with
        | some (s, resto2) => some (Json.str s, resto2)
        | none => none
      else if c == 't' then
        match resto with
        | 'r' :: 'u' :: 'e' :: resto2 => some (Json.bool true, resto2)
        | _ => none
      else if c == 'f' then
        match resto with
        | 'a' :: 'l' :: 's' :: 'e' :: resto2 => some (Json.bool false, resto2)
        | _ => none
      else if c == 'n' then
        match resto with
        | 'u' :: 'l' :: 'l' :: resto2 => some (Json.null, resto2)
        | _ => none
      else if c == '-' then
        match resto with
        | d :: resto2 =>
          if ehDigito d then
            let (v, resto3) := lerDigitos (d.toNat - '0'.toNat) resto2
            some (Json.num (-(Int.ofNat v)), resto3)
          else none
        | [] => none
      else if ehDigito c then
        let (v, resto3) := lerDigitos (c.toNat - '0'.toNat) resto
        some (Json.num (Int.ofNat v), resto3)
      else none

/-- Elements of a non-empty array, after `[`: value, then `,` and more
elements or `]`. -/
def lerItens (fuel : Nat) (cs : List Char) (acc : List Json) :
    Option (Json × List Char) :=
  match fuel with
  | 0 => none
  | fuel + 1 =>
    match lerValor fuel cs with
    | none => none
    | some (v, resto) =>
      match resto.dropWhile jsonEspaco with
      | ',' :: resto2 => lerItens fuel resto2 (v :: acc)
      | ']' :: resto2 => some (Json.arr (v :: acc).reverse, resto2)
      | _ => none

/-- Members of a non-empty object, after `{`: string key, `:`, value, then
`,` and more members or `}`. -/
def lerCampos (fuel : Nat) (cs : List Char) (acc : List (String × Json)) :
    Option (Json × List Char) :=
  match fuel with
  | 0 => none
  | fuel + 1 =>
    match cs.dropWhile jsonEspaco with
    | '"' :: resto =>
      match lerLiteral (resto.length + 1) [] resto with
      | none => none
      | some (k, resto2) =>
        match resto2.dropWhile jsonEspaco with
        | ':' :: resto3 =>
          match lerValor fuel resto3 with
          | none => none
          | some (v, resto4) =>
            match resto4.dropWhile jsonEspaco with
            | ',' :: resto5 => lerCampos fuel resto5 ((k, v) :: acc)
            | '\x7d' :: resto5 => some (Json.obj ((k, v) :: acc).reverse, resto5)
            | _ => none
        | _ => none
    | _ => none

end

/-- `json.loads` on a whole document: parse one value and require only
whitespace after it. -/
def json_loads (s : String) : Option Json :=
  match lerValor (2 * s.length + 2) s.data with
  | some (v, resto) => if resto.dropWhile jsonEspaco = [] then some v else none
  | none => none

/-- Hexadecimal digit (lowercase), for `\uXXXX` escapes in output. -/
def hexDigito (n : Nat) : Char :=
  if n < 10 then Char.ofNat ('0'.toNat + n) else Char.ofNat ('a'.toNat + n - 10)

/-- Serialize one character of a string literal as `json.dump` with
`ensure_ascii=False` does: escape the quote, the backslash and control
characters, write everything else literally. -/
def escapaChar (c : Char) : String :=
  if c == '"' then "\\\""
  else if c == '\\' then "\\\\"
  else if c == '\n' then "\\n"
  else if c == '\t' then "\\t"
  else if c == '\r' then "\\r"
  else if c == '\x08' then "\\b"
  else if c == '\x0c' then "\\f"
  else if c.toNat < 32 then
    String.mk ['\\', 'u', '0', '0', hexDigito (c.toNat / 16), hexDigito (c.toNat % 16)]
  else String.singleton c

/-- A serialized string literal. -/
def dumpLiteral (s : String) : String :=
  "\"" ++ String.join (s.data.map escapaChar) ++ "\""

/-- `indent=4`: the indentation of nesting level `lv`. -/
def espacos (lv : Nat) : String :=
  String.mk (List.replicate (4 * lv) ' ')

/-- `json.dump(·, f, ensure_ascii=False, indent=4)` on one value at nesting
level `lv`.  The fuel argument is structural and any value of at least the
nesting depth reproduces the Python output exactly; `json_dumps` below
passes `sizeOf`, which bounds the depth. -/
def dumpValor : Nat → Nat → Json → String
  | 0, _, _ => ""
  | fuel + 1, lv, v =>
    match v with
    | .null => "null"
    | .bool true => "true"
    | .bool false => "false"
    | .num n => toString n
    | .str s => dumpLiteral s
    | .arr [] => "[]"
    | .arr itens =>
      "[\n" ++
        String.intercalate ",\n"
          (itens.map (fun x => espacos (lv + 1) ++ dumpValor fuel (lv + 1) x)) ++
        "\n" ++ espacos lv ++ "]"
    | .obj [] => "\x7b\x7d"
    | .obj campos =>
      "\x7b\n" ++
        String.intercalate ",\n"
          (campos.map (fun kv =>
            espacos (lv + 1) ++ dumpLiteral kv.1 ++ ": " ++ dumpValor fuel (lv + 1) kv.2)) ++
        "\n" ++ espacos lv ++ "\x7d"

/-- The serialization written by `valida_json.py` line 97 and
`busca_noticias.py` line 203.  Any `fuel` at least the value's nesting depth
gives exactly the Python output; callers pass a bound that always suffices
(each nesting level of a parsed document consumes at least one input
character). -/
def json_dumps (fuel : Nat) (v : Json) : String :=
  dumpValor fuel 0 v

/-! ## Structural validator: `valida_json.py` lines 49–100 -/

/-- `CHAVES_OBRIGATORIAS` (line 21). -/
def CHAVES_OBRIGATORIAS : List String :=
  ["id", "titulo", "conteudo", "fonte", "data", "url"]

/-- The inner loop of `validar_estrutura_dados` (lines 64–71) on one object
at position `i`: for each required key in order, a present key is left
alone; a missing `id` receives a fresh identifier (`uuid.uuid4()` is embedded
as the supplied generator `gen` applied to the element's position); any other
missing key receives the empty string.  Python dicts keep insertion order, so
a key added by `item[chave] = ...` goes to the end. -/
def preencheItem (gen : Nat → String) (i : Nat) (item : List (String × Json)) :
    List (String × Json) :=
  CHAVES_OBRIGATORIAS.foldl
    (fun it k =>
      if (it.lookup k).isSome then it
      else it ++ [(k, if k = "id" then Json.str (gen i) else Json.str "")])
    item

/-- `validar_estrutura_dados` (lines 49–73): a non-list raises `ValueError`
(`none` here); a list is walked with positions, non-dict elements are dropped
and dict elements are completed and kept in order. -/
def validar_estrutura_dados (gen : Nat → String) : Json → Option (List Json)
  | .arr dados =>
    some (dados.enum.filterMap (fun p =>
      match p.2 with
      | .obj item => some (Json.obj (preencheItem gen p.1 item))
      | _ => none))
  | _ => none

/-- The tail of `processar_arquivo` once a parsed document `dados` is in
hand: validate the structure and serialize the corrected array.  A `none`
from validation is the `ValueError` that the outer `except` catches, so no
content is written. -/
def processaDados (gen : Nat → String) (fuel : Nat) (dados : Json) : Option String :=
  (validar_estrutura_dados gen dados).map (fun saida => json_dumps fuel (Json.arr saida))

/-- `processar_arquivo` (lines 75–100) as a function from the file's current
text to the text written back, `none` when the function logs a failure and
leaves the file untouched: strict parse, on failure one repair attempt and
one reparse, then validation and rewrite. -/
def processar_arquivo (gen : Nat → String) (conteudo : String) : Option String :=
  match json_loads conteudo with
  | some dados => processaDados gen (conteudo.length + 8) dados
  | none =>
    match json_loads (tentar_corrigir_json conteudo) with
    | some dados => processaDados gen (conteudo.length + 8) dados
    | none => none

/-! ## Validation phase entry points: `percorrer_jsons` and `main`
(valida_json.py lines 102–127) -/

/-- The directory the validation phase walks: absent, or a list of
(file name, file content) pairs. -/
inductive Diretorio where
  | ausente
  | presente (arquivos : List (String × String))

/-- `f.lower().endswith('.json')` (line 113). -/
def nomeJson (nome : String) : Bool :=
  List.isSuffixOf ".json".data (pyLower nome).data

/-- `percorrer_jsons` (lines 102–119): a missing directory prints a
diagnostic and returns — nothing is processed and no error is raised;
otherwise every `.json` file is passed through `processar_arquivo`, which
rewrites the file when it returns new content and leaves it alone when it
fails (every exception is caught inside `processar_arquivo`). -/
def percorrer_jsons (gen : Nat → String) : Diretorio → Diretorio
  | .ausente => .ausente
  | .presente arquivos =>
    .presente (arquivos.map (fun par =>
      if nomeJson par.1 then
        match processar_arquivo gen par.2 with
        | some novo => (par.1, novo)
        | none => par
      else par))

/-- `main` of `valida_json.py` (lines 121–127): it reads no command-line
argument — the target directory is derived from the script's own location —
calls `percorrer_jsons` and returns normally, so the interpreter always
terminates the process with exit status 0; no branch calls `sys.exit` and no
exception can escape (`processar_arquivo` catches everything and a missing
directory just prints and returns).  The result is (exit status, directory
after the run). -/
def valida_main (gen : Nat → String) (dir : Diretorio) : Nat × Diretorio :=
  (0, percorrer_jsons gen dir)

/-! ## Specification-side definitions

The definitions below follow the words of the specification / the claims
rather than the Python control flow; the theorems relate them to the
source-translated definitions above. -/

/-- Modelled from the spec's wording for the Merge-Store batch filter: keep
the first record carrying each natural key, dropping every later record
whose key was already seen (`vistas` accumulates the keys of kept records). -/
def dedupPrimeira (vistas : List Chave) : List Noticia → List Noticia
  | [] => []
  | n :: resto =>
    if chave n ∈ vistas then dedupPrimeira vistas resto
    else n :: dedupPrimeira (chave n :: vistas) resto

/-- Modelled from the spec's wording for the Merge-Store contract: the final
content is the existing records verbatim, followed by those new records, in
arrival order, whose natural key is absent from the existing records' key
set, collapsed to the first record per key. -/
def mergeSpec (existentes novas : List Noticia) : List Noticia :=
  existentes ++
    dedupPrimeira [] (novas.filter (fun n => decide (chave n ∉ existentes.map chave)))

/-- Modelled from the claim's wording for the validator backfill: the object
keeps all of its keys and values, and each required key it misses is
appended, `id` with a freshly generated identifier and every other key with
the empty string. -/
def preencheSpec (gen : Nat → String) (i : Nat) (item : List (String × Json)) :
    List (String × Json) :=
  item ++
    (CHAVES_OBRIGATORIAS.filter (fun k => (item.lookup k).isNone)).map
      (fun k => (k, if k = "id" then Json.str (gen i) else Json.str ""))

/-! ## Lemmas about the Merge-Store -/

/-- The batch loop is the composition of the existing-key filter with
first-per-key deduplication. -/
theorem processaNovas_eq_dedup (ek : List Chave) (ns : List Noticia) :
    ∀ seen, processaNovas ek ns seen =
      dedupPrimeira seen (ns.filter (fun n => decide (chave n ∉ ek))) := by
  induction ns with
  | nil => intro seen; simp [processaNovas, dedupPrimeira]
  | cons n resto ih =>
    intro seen
    by_cases hek : chave n ∈ ek
    · simp [processaNovas, hek, ih]
    · by_cases hseen : chave n ∈ seen
      · simp [processaNovas, dedupPrimeira, hek, hseen, ih]
      · simp [processaNovas, dedupPrimeira, hek, hseen, ih]

/-- Every record of the batch has its key in the existing set, in the seen
set, or among the keys of the admitted records. -/
theorem chave_mem_processaNovas (ek : List Chave) (ns : List Noticia) :
    ∀ seen n, n ∈ ns →
      chave n ∈ ek ∨ chave n ∈ seen ∨ chave n ∈ (processaNovas ek ns seen).map chave := by
  induction ns with
  | nil => intro seen n hn; cases hn
  | cons m resto ih =>
    intro seen n hn
    by_cases hcond : chave m ∉ ek ∧ chave m ∉ seen
    · have hstep : processaNovas ek (m :: resto) seen =
          m :: processaNovas ek resto (chave m :: seen) := by
        simp only [processaNovas, if_pos hcond]
      rcases List.mem_cons.mp hn with rfl | hn'
      · right; right
        rw [hstep]
        exact List.mem_cons_self _ _
      · rcases ih (chave m :: seen) n hn' with h | h | h
        · exact Or.inl h
        · rcases List.mem_cons.mp h with heq | h'
          · right; right
            rw [hstep, List.map_cons, heq]
            exact List.mem_cons_self _ _
          · exact Or.inr (Or.inl h')
        · right; right
          rw [hstep, List.map_cons]
          exact List.mem_cons_of_mem _ h
    · have hstep : processaNovas ek (m :: resto) seen =
          processaNovas ek resto seen := by
        simp only [processaNovas, if_neg hcond]
      rcases List.mem_cons.mp hn with rfl | hn'
      · rcases Decidable.not_and_iff_or_not.mp hcond with h | h
        · exact Or.inl (Decidable.not_not.mp h)
        · exact Or.inr (Or.inl (Decidable.not_not.mp h))
      · rw [hstep]
        exact ih seen n hn'

/-- A batch whose keys are all already present admits nothing. -/
theorem processaNovas_vazio (ek : List Chave) (ns : List Noticia)
    (h : ∀ n ∈ ns, chave n ∈ ek) : ∀ seen, processaNovas ek ns seen = [] := by
  induction ns with
  | nil => intro seen; rfl
  | cons m resto ih =>
    intro seen
    have hm : chave m ∈ ek := h m (List.mem_cons_self _ _)
    have hstep : processaNovas ek (m :: resto) seen = processaNovas ek resto seen := by
      have : ¬ (chave m ∉ ek ∧ chave m ∉ seen) := fun hc => hc.1 hm
      simp only [processaNovas, if_neg this]
    rw [hstep]
    exact ih (fun n hn => h n (List.mem_cons_of_mem _ hn)) seen

/-- C1: the content written for one date is the existing records verbatim and
in order, followed by exactly those new records, in arrival order, whose
natural key (lowercased-and-trimmed title, trimmed source, exact date) occurs
neither among the existing records' keys nor among the keys of new records
admitted earlier in the batch — records are compared by that key alone, so a
new record matching an existing key is dropped whatever its other fields. -/
theorem salvar_noticias_contrato_merge (existentes novas : List Noticia) :
    salvarCombinadas existentes novas = mergeSpec existentes novas := by
  simp only [salvarCombinadas, mergeSpec]
  rw [processaNovas_eq_dedup]

/-- C2: merging a batch into the file that already resulted from merging that
same batch admits zero records and leaves the content unchanged. -/
theorem salvar_noticias_idempotente (existentes novas : List Noticia) :
    processaNovas ((salvarCombinadas existentes novas).map chave) novas [] = [] ∧
    salvarCombinadas (salvarCombinadas existentes novas) novas =
      salvarCombinadas existentes novas := by
  have hmem : ∀ n ∈ novas, chave n ∈ (salvarCombinadas existentes novas).map chave := by
    intro n hn
    have h := chave_mem_processaNovas (existentes.map chave) novas [] n hn
    simp only [salvarCombinadas, List.map_append]
    rcases h with h | h | h
    · exact List.mem_append.mpr (Or.inl h)
    · cases h
    · exact List.mem_append.mpr (Or.inr h)
  have hzero := processaNovas_vazio _ novas hmem []
  refine ⟨hzero, ?_⟩
  conv_lhs => rw [salvarCombinadas]
  rw [hzero, List.append_nil]

/-- C6: an existing partition file that is unreadable or whose top-level
value is not a list is treated exactly like an empty list — the run does not
fail, the new records are still deduplicated among themselves and written,
and every new record's key reaches the written content. -/
theorem salvar_existente_corrompido (novas : List Noticia) :
    salvarData .erroLeitura novas = salvarData (.lista []) novas ∧
    salvarData .conteudoNaoLista novas = salvarData (.lista []) novas ∧
    salvarData .erroLeitura novas = dedupPrimeira [] novas ∧
    ∀ n ∈ novas, chave n ∈ (salvarData .erroLeitura novas).map chave := by
  refine ⟨rfl, rfl, ?_, ?_⟩
  · show salvarCombinadas [] novas = dedupPrimeira [] novas
    simp only [salvarCombinadas, List.map_nil, List.nil_append]
    rw [processaNovas_eq_dedup]
    congr 1
    refine List.filter_eq_self.mpr ?_
    intro a _
    simp
  · intro n hn
    have h := chave_mem_processaNovas ([] : List Chave) novas [] n hn
    rcases h with h | h | h
    · cases h
    · cases h
    · show chave n ∈ (salvarCombinadas [] novas).map chave
      simpa [salvarCombinadas] using h

/-- Dates not listed in the remaining partitions keep their file untouched. -/
theorem salvar_noticias_outras_datas (falhaEscrita : String → Bool) (d : String) :
    ∀ (particoes : List (String × List Noticia)) (arquivos : Arquivos),
      d ∉ particoes.map Prod.fst →
      salvar_noticias falhaEscrita particoes arquivos d = arquivos d := by
  intro particoes
  induction particoes with
  | nil => intro arquivos _; rfl
  | cons par resto ih =>
    intro arquivos h
    obtain ⟨d0, ns0⟩ := par
    have hne : d ≠ d0 := by
      intro he
      exact h (by simp [he])
    have hresto : d ∉ resto.map Prod.fst := by
      intro hm
      exact h (by simp [hm])
    simp only [salvar_noticias]
    by_cases hf : falhaEscrita d0
    · rw [if_pos hf, ih _ hresto]
    · rw [if_neg hf, ih _ hresto, escreveArquivo, if_neg hne]

/-- C9: with pairwise distinct dates in the grouped input, every date whose
write does not fail ends with the merged content computed from its own
initial file, whatever writes of other dates fail: one partition's write
failure never prevents another partition's merge-and-write. -/
theorem salvar_noticias_falha_isolada (falhaEscrita : String → Bool)
    (particoes : List (String × List Noticia)) (arquivos : Arquivos)
    (d : String) (ns : List Noticia)
    (hnodup : (particoes.map Prod.fst).Nodup)
    (hmem : (d, ns) ∈ particoes)
    (hok : falhaEscrita d = false) :
    salvar_noticias falhaEscrita particoes arquivos d =
      LeituraExistente.lista (salvarData (arquivos d) ns) := by
  revert hnodup hmem
  induction particoes generalizing arquivos with
  | nil => intro _ hmem; cases hmem
  | cons par resto ih =>
    intro hnodup hmem
    obtain ⟨d0, ns0⟩ := par
    have hcons : d0 ∉ resto.map Prod.fst ∧ (resto.map Prod.fst).Nodup :=
      List.nodup_cons.mp (by simpa using hnodup)
    rcases List.mem_cons.mp hmem with heq | hmem'
    · injection heq with h1 h2
      subst h1
      subst h2
      simp only [salvar_noticias]
      rw [if_neg (by simp [hok])]
      rw [salvar_noticias_outras_datas falhaEscrita d resto _ hcons.1]
      simp [escreveArquivo]
    · have hd : d ∈ resto.map Prod.fst := List.mem_map.mpr ⟨(d, ns), hmem', rfl⟩
      have hne : d ≠ d0 := fun he => hcons.1 (he ▸ hd)
      simp only [salvar_noticias]
      by_cases hf : falhaEscrita d0
      · rw [if_pos hf]
        exact ih arquivos hcons.2 hmem'
      · rw [if_neg hf]
        rw [ih _ hcons.2 hmem']
        have harq : escreveArquivo arquivos d0 (salvarData (arquivos d0) ns0) d = arquivos d := by
          simp [escreveArquivo, hne]
        rw [harq]

/-- Witness for C9: a concrete two-date run in which the first date's write
fails and the second date still receives its merged content. -/
theorem salvar_noticias_falha_isolada_testemunha :
    salvar_noticias (fun s => s == "2024-01-01")
      [("2024-01-01", [⟨"i1", "T1", "C1", "F1", "2024-01-01", "u1", ""⟩]),
       ("2024-01-02", [⟨"i2", "T2", "C2", "F2", "2024-01-02", "u2", ""⟩])]
      (fun _ => LeituraExistente.arquivoAusente) "2024-01-02" =
      LeituraExistente.lista (salvarData LeituraExistente.arquivoAusente
        [⟨"i2", "T2", "C2", "F2", "2024-01-02", "u2", ""⟩]) :=
  salvar_noticias_falha_isolada _ _ _ _ _ (by decide) (by decide) (by decide)

/-! ## Lemmas about the Grouper -/

/-- Effect of one grouping step on a date's group. -/
theorem lookup_insereAgrupada (n : Noticia) :
    ∀ (ag : List (String × List Noticia)) (d : String),
      (insereAgrupada n ag).lookup d =
        if d = n.data then some (((ag.lookup n.data).getD []) ++ [n])
        else ag.lookup d := by
  intro ag
  induction ag with
  | nil =>
    intro d
    by_cases h : d = n.data
    · subst h
      simp [insereAgrupada, List.lookup]
    · have hb : (d == n.data) = false := by simp [h]
      simp [insereAgrupada, List.lookup, hb, h]
  | cons par resto ih =>
    intro d
    obtain ⟨d0, g0⟩ := par
    by_cases h0 : d0 = n.data
    · subst h0
      have hstep : insereAgrupada n ((n.data, g0) :: resto) =
          (n.data, g0 ++ [n]) :: resto := by
        simp [insereAgrupada]
      rw [hstep]
      by_cases h : d = n.data
      · subst h
        simp [List.lookup]
      · have hb : (d == n.data) = false := by simp [h]
        simp [List.lookup, hb, h]
    · have hstep : insereAgrupada n ((d0, g0) :: resto) =
          (d0, g0) :: insereAgrupada n resto := by
        simp [insereAgrupada, h0]
      rw [hstep]
      by_cases h : d = d0
      · subst h
        have h0' : ¬ d = n.data := fun he => h0 he
        simp [List.lookup, h0']
      · have hb : (d == d0) = false := by simp [h]
        by_cases hd : d = n.data
        · have hb2 : (n.data == d0) = false := by
            simp
            intro he
            exact absurd he.symm h0
          simp [List.lookup, hb, hb2, ih, hd]
        · simp [List.lookup, hb, ih, hd]

/-- Folding records into the map extends an already-present group by exactly
the records of that date, in order. -/
theorem lookup_agrupar_presente (ns : List Noticia) :
    ∀ (ag : List (String × List Noticia)) (d : String) (grupo : List Noticia),
      ag.lookup d = some grupo →
      (ns.foldl (fun a n => insereAgrupada n a) ag).lookup d =
        some (grupo ++ ns.filter (fun n => n.data == d)) := by
  induction ns with
  | nil =>
    intro ag d grupo h
    simpa using h
  | cons n resto ih =>
    intro ag d grupo h
    simp only [List.foldl_cons]
    by_cases hd : d = n.data
    · have hlook : (insereAgrupada n ag).lookup d = some (grupo ++ [n]) := by
        rw [lookup_insereAgrupada, if_pos hd, ← hd, h]
        rfl
      have := ih (insereAgrupada n ag) d (grupo ++ [n]) hlook
      rw [this]
      have hfilter : (n :: resto).filter (fun m => m.data == d) =
          n :: resto.filter (fun m => m.data == d) := by
        simp [List.filter_cons, hd.symm]
      rw [hfilter, List.append_assoc]
      rfl
    · have hlook : (insereAgrupada n ag).lookup d = some grupo := by
        rw [lookup_insereAgrupada, if_neg hd, h]
      have := ih (insereAgrupada n ag) d grupo hlook
      rw [this]
      have hb : (n.data == d) = false := by
        simp
        exact fun he => hd he.symm
      rw [List.filter_cons, hb]
      simp

/-- Folding records into the map creates an absent date's group exactly when
some record carries that date, and then the group is the filtered input. -/
theorem lookup_agrupar_ausente (ns : List Noticia) :
    ∀ (ag : List (String × List Noticia)) (d : String),
      ag.lookup d = none →
      (ns.foldl (fun a n => insereAgrupada n a) ag).lookup d =
        (if ns.any (fun n => n.data == d) then
          some (ns.filter (fun n => n.data == d))
        else none) := by
  induction ns with
  | nil =>
    intro ag d h
    simpa using h
  | cons n resto ih =>
    intro ag d h
    simp only [List.foldl_cons]
    by_cases hd : d = n.data
    · have hlook : (insereAgrupada n ag).lookup d = some [n] := by
        rw [lookup_insereAgrupada, if_pos hd, ← hd, h]
        rfl
      have := lookup_agrupar_presente resto (insereAgrupada n ag) d [n] hlook
      rw [this]
      have hb : (n.data == d) = true := by simp [hd.symm]
      simp [List.any_cons, List.filter_cons, hb]
    · have hlook : (insereAgrupada n ag).lookup d = none := by
        rw [lookup_insereAgrupada, if_neg hd, h]
      have := ih (insereAgrupada n ag) d hlook
      rw [this]
      have hb : (n.data == d) = false := by
        simp
        exact fun he => hd he.symm
      simp [List.any_cons, List.filter_cons, hb]

/-- C7: the Grouper is a pure map from each date to exactly the input records
carrying that date, in input order and without any deduplication — a date
string is mapped to a group precisely when some record carries it, the group
is the order-preserving filter of the input (duplicates included), and no
record with a different date ever appears in it. -/
theorem agrupar_noticias_caracterizacao (noticias : List Noticia) (d : String) :
    (agrupar_noticias_por_data noticias).lookup d =
      (if noticias.any (fun n => n.data == d) then
        some (noticias.filter (fun n => n.data == d))
      else none) ∧
    ∀ grupo, (agrupar_noticias_por_data noticias).lookup d = some grupo →
      ∀ n ∈ grupo, n.data = d := by
  have hmain : (agrupar_noticias_por_data noticias).lookup d =
      (if noticias.any (fun n => n.data == d) then
        some (noticias.filter (fun n => n.data == d))
      else none) := by
    rw [agrupar_noticias_por_data]
    exact lookup_agrupar_ausente noticias [] d rfl
  refine ⟨hmain, ?_⟩
  intro grupo hgrupo n hn
  rw [hmain] at hgrupo
  by_cases hany : noticias.any (fun n => n.data == d)
  · rw [if_pos hany] at hgrupo
    have : grupo = noticias.filter (fun n => n.data == d) :=
      (Option.some.injEq _ _ ▸ hgrupo.symm : _)
    subst this
    have := List.of_mem_filter hn
    exact beq_iff_eq.mp this
  · rw [if_neg hany] at hgrupo
    cases hgrupo

/-! ## Lemmas about the textual repair -/

/-- Whether the regex pattern `,\s*[}\]]` matches at the very first
character. -/
def iniciaPadrao : List Char → Bool
  | [] => false
  | c :: resto => c == ',' && ehFechamento ((resto.dropWhile ehEspaco).headD 'x')

/-- The repair only deletes characters: its output is a subsequence of its
input. -/
theorem corrige_sub (cs : List Char) : List.Sublist (corrigeLista cs) cs := by
  induction cs using corrigeLista.induct with
  | case1 => simp [corrigeLista]
  | case2 c resto hcond ih =>
    rw [corrigeLista, if_pos hcond]
    have hne : resto.dropWhile ehEspaco ≠ [] := by
      intro h0
      rw [h0] at hcond
      simp [ehFechamento] at hcond
    have hdecomp : (resto.dropWhile ehEspaco).headD 'x' :: (resto.dropWhile ehEspaco).tail
        = resto.dropWhile ehEspaco := by
      cases hdw : resto.dropWhile ehEspaco with
      | nil => exact absurd hdw hne
      | cons a t => simp
    have step1 : List.Sublist
        ((resto.dropWhile ehEspaco).headD 'x' :: corrigeLista (resto.dropWhile ehEspaco).tail)
        ((resto.dropWhile ehEspaco).headD 'x' :: (resto.dropWhile ehEspaco).tail) :=
      List.Sublist.cons₂ _ ih
    have step2 : List.Sublist
        ((resto.dropWhile ehEspaco).headD 'x' :: (resto.dropWhile ehEspaco).tail) resto := by
      rw [hdecomp]
      exact (resto.dropWhile_suffix ehEspaco).sublist
    exact (step1.trans step2).trans (List.sublist_cons_self c resto)
  | case3 c resto hcond ih =>
    rw [corrigeLista, if_neg hcond]
    exact List.Sublist.cons₂ c ih

/-- The repair returns its input unchanged exactly when the input contains no
occurrence of the pattern. -/
theorem corrige_ponto_fixo (cs : List Char) :
    corrigeLista cs = cs ↔ temPadrao cs = false := by
  induction cs using corrigeLista.induct with
  | case1 => simp [corrigeLista, temPadrao]
  | case2 c resto hcond ih =>
    rw [corrigeLista, if_pos hcond]
    have hpad : temPadrao (c :: resto) = true := by
      simp only [temPadrao, Bool.or_eq_true]
      exact Or.inl hcond
    rw [hpad]
    refine iff_of_false ?_ (by simp)
    intro hcontra
    have hhead : (resto.dropWhile ehEspaco).headD 'x' = c := by
      exact (List.cons.injEq _ _ _ _ ▸ hcontra : _).1
    have hc : (c == ',') = true := (Bool.and_eq_true .. ▸ hcond : _).1
    have hf : ehFechamento ((resto.dropWhile ehEspaco).headD 'x') = true :=
      (Bool.and_eq_true .. ▸ hcond : _).2
    rw [hhead, beq_iff_eq.mp hc] at hf
    simp [ehFechamento] at hf
  | case3 c resto hcond ih =>
    rw [corrigeLista, if_neg hcond]
    have hpad : temPadrao (c :: resto) = temPadrao resto := by
      simp only [temPadrao, Bool.or_eq_true]
      simp only [Bool.not_eq_true] at hcond
      rw [hcond]
      simp
    rw [hpad, List.cons.injEq]
    simp only [true_and]
    exact ih

/-- A head that does not start a match is copied unchanged. -/
theorem corrige_cons_sem_padrao (c : Char) (l : List Char)
    (h : iniciaPadrao (c :: l) = false) :
    corrigeLista (c :: l) = c :: corrigeLista l := by
  have h' : (c == ',' && ehFechamento ((l.dropWhile ehEspaco).headD 'x')) = false := h
  rw [corrigeLista, h']
  rfl

/-- A match at the head is rewritten to its closer, and scanning resumes
after the closer. -/
theorem corrige_casamento (ws : List Char) (hws : ∀ x ∈ ws, ehEspaco x = true)
    (c : Char) (hc : ehFechamento c = true) (rest : List Char) :
    corrigeLista (',' :: (ws ++ c :: rest)) = c :: corrigeLista rest := by
  have hcs : ehEspaco c = false := by
    rcases Bool.or_eq_true .. ▸ hc with h | h
    · rw [beq_iff_eq.mp h]; rfl
    · rw [beq_iff_eq.mp h]; rfl
  have hdw : (ws ++ c :: rest).dropWhile ehEspaco = c :: rest := by
    induction ws with
    | nil => simp [List.dropWhile, hcs]
    | cons x ws ih =>
      have hx : ehEspaco x = true := hws x (List.mem_cons_self _ _)
      have hws' : ∀ y ∈ ws, ehEspaco y = true :=
        fun y hy => hws y (List.mem_cons_of_mem _ hy)
      simp [List.dropWhile, hx, ih hws']
  rw [corrigeLista, hdw]
  simp [hc]

/-- When no match starts at a position strictly inside the prefix `p` (at
any character `a` of `p`, written through the splits `p = p1 ++ a :: p2`),
the leftmost match is rewritten in place: the prefix is copied verbatim, the
comma and its whitespace disappear, the closer stays, and the scan resumes
after it. -/
theorem corrige_reescrita_esquerda (p : List Char) :
    ∀ (ws : List Char) (c : Char) (rest : List Char),
      (∀ (p1 : List Char) (a : Char) (p2 : List Char), p = p1 ++ a :: p2 →
        iniciaPadrao ((a :: p2) ++ ',' :: (ws ++ c :: rest)) = false) →
      (∀ x ∈ ws, ehEspaco x = true) →
      ehFechamento c = true →
      corrigeLista (p ++ ',' :: (ws ++ c :: rest)) = p ++ c :: corrigeLista rest := by
  induction p with
  | nil =>
    intro ws c rest _ hws hc
    simpa using corrige_casamento ws hws c hc rest
  | cons a p ih =>
    intro ws c rest hp hws hc
    have h0 : iniciaPadrao ((a :: p) ++ ',' :: (ws ++ c :: rest)) = false :=
      hp [] a p rfl
    have hstep := corrige_cons_sem_padrao a (p ++ ',' :: (ws ++ c :: rest)) h0
    rw [List.cons_append, hstep]
    rw [ih ws c rest
      (fun p1 a' p2 hsplit => hp (a :: p1) a' p2 (by rw [hsplit]; rfl)) hws hc]
    rfl

/-- C3 (amended): the repair pre-pass only deletes characters (the output is
a subsequence of the input); it returns the input unchanged precisely when no
comma's next non-whitespace character is `}` or `]`; and at the leftmost such
comma it deletes the comma together with the whitespace separating it from
the closer, copies everything before it verbatim, keeps the closer and
resumes after it.  The transformation is purely textual and applies also
inside JSON string literals. -/
theorem tentar_corrigir_caracterizacao (s : String) :
    List.Sublist (tentar_corrigir_json s).data s.data ∧
    (tentar_corrigir_json s = s ↔ temPadrao s.data = false) ∧
    (∀ (p ws : List Char) (c : Char) (rest : List Char),
      s.data = p ++ ',' :: (ws ++ c :: rest) →
      (∀ (p1 : List Char) (a : Char) (p2 : List Char), p = p1 ++ a :: p2 →
        iniciaPadrao ((a :: p2) ++ ',' :: (ws ++ c :: rest)) = false) →
      (∀ x ∈ ws, ehEspaco x = true) →
      ehFechamento c = true →
      (tentar_corrigir_json s).data = p ++ c :: corrigeLista rest) := by
  refine ⟨?_, ?_, ?_⟩
  · show List.Sublist (corrigeLista s.data) s.data
    exact corrige_sub s.data
  · have hmk : tentar_corrigir_json s = s ↔ corrigeLista s.data = s.data := by
      cases s with
      | mk l =>
        show String.mk (corrigeLista l) = String.mk l ↔ corrigeLista l = l
        exact ⟨fun h => congrArg String.data h, fun h => congrArg String.mk h⟩
    rw [hmk]
    exact corrige_ponto_fixo s.data
  · intro p ws c rest hsplit hp hws hc
    show corrigeLista s.data = p ++ c :: corrigeLista rest
    rw [hsplit]
    exact corrige_reescrita_esquerda p ws c rest hp hws hc

/-- Witness for the leftmost-rewrite clause of the amended C3 at the concrete
input `[1,]`: decomposed as prefix `[1`, an empty whitespace run and the
closer `]`, every hypothesis of the clause holds (no match starts inside the
prefix), and applying the clause computes the repaired text `[1]`. -/
theorem tentar_corrigir_caracterizacao_testemunha :
    (tentar_corrigir_json "[1,]").data = ['[', '1', ']'] := by
  have hA : ∀ (p1 : List Char) (a : Char) (p2 : List Char),
      (['[', '1'] : List Char) = p1 ++ a :: p2 →
      iniciaPadrao ((a :: p2) ++ ',' :: (([] : List Char) ++ ']' :: [])) = false := by
    intro p1 a p2 h
    rcases p1 with _ | ⟨x, p1⟩
    · rw [List.nil_append] at h
      injection h with h1 h2
      subst h1
      subst h2
      rfl
    · rw [List.cons_append] at h
      injection h with h1 h2
      rcases p1 with _ | ⟨y, p1⟩
      · rw [List.nil_append] at h2
        injection h2 with h3 h4
        subst h3
        subst h4
        rfl
      · rw [List.cons_append] at h2
        injection h2 with h3 h4
        have h5 := List.append_eq_nil.mp h4.symm
        cases h5.2
  have hB : ∀ x ∈ ([] : List Char), ehEspaco x = true := by
    intro x hx
    cases hx
  have h := (tentar_corrigir_caracterizacao "[1,]").2.2 ['[', '1'] [] ']' [] rfl hA hB rfl
  rw [h]
  simp [corrigeLista]

/-- C3 counterexample: on `", }"` the repair deletes the comma although no
comma immediately precedes a closer (a space intervenes), and it deletes the
intervening space as well; on the valid document `["a,]"]` it rewrites a
character inside a JSON string literal.  Both outputs contradict the claim
that exactly the commas immediately preceding a closer are removed, nothing
else changes, and string literals are never altered. -/
theorem tentar_corrigir_contraexemplo :
    tentar_corrigir_json ", \x7d" = "\x7d" ∧
    tentar_corrigir_json ", \x7d" ≠ ", \x7d" ∧
    tentar_corrigir_json "[\"a,]\"]" = "[\"a]\"]" ∧
    tentar_corrigir_json "[\"a,]\"]" ≠ "[\"a,]\"]" := by
  have h1 : tentar_corrigir_json ", \x7d" = "\x7d" := by
    simp [tentar_corrigir_json, corrigeLista, ehEspaco, ehFechamento]
  have h2 : tentar_corrigir_json "[\"a,]\"]" = "[\"a]\"]" := by
    simp [tentar_corrigir_json, corrigeLista, ehEspaco, ehFechamento]
  refine ⟨h1, ?_, h2, ?_⟩
  · rw [h1]; decide
  · rw [h2]; decide

/-! ## Lemmas about the structural validator -/

/-- Association-list lookup distributes over append. -/
theorem lookup_append_par (k : String) :
    ∀ (l1 l2 : List (String × Json)),
      (l1 ++ l2).lookup k =
        (match l1.lookup k with
          | some v => some v
          | none => l2.lookup k) := by
  intro l1 l2
  induction l1 with
  | nil => rfl
  | cons par resto ih =>
    obtain ⟨a, b⟩ := par
    by_cases h : k = a
    · subst h
      simp [List.lookup]
    · have hb : (k == a) = false := by simp [h]
      simp [List.lookup, hb, ih]

/-- Appending one pair with a different key does not change a lookup. -/
theorem lookup_append_um (k k' : String) (w : Json) (hne : k' ≠ k)
    (item : List (String × Json)) :
    (item ++ [(k, w)]).lookup k' = item.lookup k' := by
  rw [lookup_append_par]
  have hb : (k' == k) = false := by simp [hne]
  cases h : item.lookup k' <;> simp [List.lookup, hb]

/-- Looking a key up in a key-indexed map of pairs. -/
theorem lookup_map_pares (v : String → Json) (k : String) :
    ∀ l : List String, k ∈ l →
      (l.map (fun k' => (k', v k'))).lookup k = some (v k) := by
  intro l
  induction l with
  | nil => intro h; cases h
  | cons a resto ih =>
    intro h
    by_cases hk : k = a
    · subst hk
      simp [List.lookup]
    · have hb : (k == a) = false := by simp [hk]
      have hmem : k ∈ resto := by
        rcases List.mem_cons.mp h with h' | h'
        · exact absurd h' hk
        · exact h'
      simp [List.lookup, hb, ih hmem]

/-- The backfill fold equals the spec-side append of the missing keys (for
any duplicate-free key list). -/
theorem preenche_foldl_eq (gen : Nat → String) (i : Nat) :
    ∀ (ks : List String), ks.Nodup → ∀ item : List (String × Json),
      ks.foldl
        (fun it k =>
          if (it.lookup k).isSome then it
          else it ++ [(k, if k = "id" then Json.str (gen i) else Json.str "")])
        item =
      item ++ (ks.filter (fun k => (item.lookup k).isNone)).map
        (fun k => (k, if k = "id" then Json.str (gen i) else Json.str "")) := by
  intro ks
  induction ks with
  | nil => intro _ item; simp
  | cons k ks ih =>
    intro hnodup item
    have hk : k ∉ ks := (List.nodup_cons.mp hnodup).1
    have hnodup' : ks.Nodup := (List.nodup_cons.mp hnodup).2
    simp only [List.foldl_cons]
    by_cases h : (item.lookup k).isSome
    · rw [if_pos h]
      rw [ih hnodup' item]
      have hcond : ((item.lookup k).isNone) = false := by
        cases hik : item.lookup k
        · rw [hik] at h; cases h
        · rfl
      rw [List.filter_cons, hcond]
      simp
    · rw [if_neg h]
      rw [ih hnodup' (item ++ [(k, if k = "id" then Json.str (gen i) else Json.str "")])]
      have hcond : ((item.lookup k).isNone) = true := by
        cases hik : item.lookup k
        · rfl
        · rw [hik] at h; simp at h
      have hfilter :
          ks.filter
            (fun k' =>
              (((item ++ [(k, if k = "id" then Json.str (gen i) else Json.str "")]).lookup k')).isNone) =
          ks.filter (fun k' => (item.lookup k').isNone) := by
        refine List.filter_congr ?_
        intro k' hk'
        have hne : k' ≠ k := fun he => hk (he ▸ hk')
        rw [lookup_append_um k k' _ hne]
      rw [hfilter, List.filter_cons, hcond]
      simp [List.append_assoc]

/-- The source backfill equals the spec-side backfill. -/
theorem preencheItem_eq_spec (gen : Nat → String) (i : Nat)
    (item : List (String × Json)) :
    preencheItem gen i item = preencheSpec gen i item := by
  simp only [preencheItem, preencheSpec]
  exact preenche_foldl_eq gen i CHAVES_OBRIGATORIAS (by decide) item

/-- C5: on a parsed top-level array the validator returns exactly the object
elements, in their original order, each completed so that all six required
keys are present — keys already present keep their values, a missing `id`
receives the freshly generated identifier for that position (non-empty
whenever the generator produces non-empty identifiers), and every other
missing required key receives the empty string. -/
theorem validar_estrutura_caracterizacao (gen : Nat → String)
    (hgen : ∀ n, gen n ≠ "") (dados : List Json) :
    validar_estrutura_dados gen (Json.arr dados) =
      some (dados.enum.filterMap (fun p =>
        match p.2 with
        | Json.obj item => some (Json.obj (preencheSpec gen p.1 item))
        | _ => none)) ∧
    (∀ i (item : List (String × Json)), (i, Json.obj item) ∈ dados.enum →
      (∀ k ∈ CHAVES_OBRIGATORIAS, ((preencheItem gen i item).lookup k).isSome) ∧
      (∀ k v, item.lookup k = some v → (preencheItem gen i item).lookup k = some v) ∧
      (item.lookup "id" = none →
        (preencheItem gen i item).lookup "id" = some (Json.str (gen i)) ∧ gen i ≠ "") ∧
      (∀ k, k ∈ CHAVES_OBRIGATORIAS → k ≠ "id" → item.lookup k = none →
        (preencheItem gen i item).lookup k = some (Json.str ""))) := by
  constructor
  · have hfun : (fun p : Nat × Json =>
        match p.2 with
        | Json.obj item => some (Json.obj (preencheItem gen p.1 item))
        | _ => none) =
        (fun p : Nat × Json =>
          match p.2 with
          | Json.obj item => some (Json.obj (preencheSpec gen p.1 item))
          | _ => none) := by
      funext p
      obtain ⟨i, j⟩ := p
      cases j <;> simp [preencheItem_eq_spec]
    simp only [validar_estrutura_dados]
    rw [hfun]
  · intro i item _
    have hpe := preencheItem_eq_spec gen i item
    refine ⟨?_, ?_, ?_, ?_⟩
    · intro k hkmem
      rw [hpe, preencheSpec, lookup_append_par]
      cases hik : item.lookup k with
      | some v => simp
      | none =>
        have hcond : ((item.lookup k).isNone) = true := by rw [hik]; rfl
        have hfil : k ∈ CHAVES_OBRIGATORIAS.filter (fun k' => (item.lookup k').isNone) :=
          List.mem_filter.mpr ⟨hkmem, hcond⟩
        rw [lookup_map_pares _ k _ hfil]
        simp
    · intro k v hkv
      rw [hpe, preencheSpec, lookup_append_par, hkv]
    · intro hid
      refine ⟨?_, hgen i⟩
      rw [hpe, preencheSpec, lookup_append_par, hid]
      have hcond : ((item.lookup "id").isNone) = true := by rw [hid]; rfl
      have hfil : "id" ∈ CHAVES_OBRIGATORIAS.filter (fun k' => (item.lookup k').isNone) :=
        List.mem_filter.mpr ⟨by decide, hcond⟩
      rw [lookup_map_pares _ "id" _ hfil]
      simp
    · intro k hkmem hkid hknone
      rw [hpe, preencheSpec, lookup_append_par, hknone]
      have hcond : ((item.lookup k).isNone) = true := by rw [hknone]; rfl
      have hfil : k ∈ CHAVES_OBRIGATORIAS.filter (fun k' => (item.lookup k').isNone) :=
        List.mem_filter.mpr ⟨hkmem, hcond⟩
      rw [lookup_map_pares _ k _ hfil]
      simp [hkid]

/-- Witness for C5 at the spec's own example: `{"titulo":"T","conteudo":"C"}`
plus two non-object elements; the non-objects are dropped and the object is
completed with a fresh non-empty id and empty strings. -/
theorem validar_estrutura_testemunha :
    validar_estrutura_dados (fun _ => "novo-id")
      (Json.arr [Json.obj [("titulo", Json.str "T"), ("conteudo", Json.str "C")],
        Json.str "garbage", Json.num 5]) =
      some [Json.obj [("titulo", Json.str "T"), ("conteudo", Json.str "C"),
        ("id", Json.str "novo-id"), ("fonte", Json.str ""),
        ("data", Json.str ""), ("url", Json.str "")]] :=
  ((validar_estrutura_caracterizacao (fun _ => "novo-id")
      (fun _ => (by decide : "novo-id" ≠ ""))
    [Json.obj [("titulo", Json.str "T"), ("conteudo", Json.str "C")],
      Json.str "garbage", Json.num 5]).1).trans (by rfl)

/-- Validation refuses exactly the non-array documents. -/
theorem processaDados_none_iff (gen : Nat → String) (fuel : Nat) (d : Json) :
    processaDados gen fuel d = none ↔ ∀ xs, d ≠ Json.arr xs := by
  cases d <;> simp [processaDados, validar_estrutura_dados]

/-- C10: the validator rewrites a file only after parsing (strict, or once
repaired) and structural validation have both succeeded — when both parses
fail, or the effectively parsed top-level value is not an array, the file's
content is left unchanged (`none`); and any written content comes from a
successfully parsed array passed through the structural correction. -/
theorem processar_arquivo_controle (gen : Nat → String) (conteudo : String) :
    (processar_arquivo gen conteudo = none ↔
      ((json_loads conteudo = none ∧ json_loads (tentar_corrigir_json conteudo) = none) ∨
        (∃ dados, (json_loads conteudo = some dados ∨
            (json_loads conteudo = none ∧
              json_loads (tentar_corrigir_json conteudo) = some dados)) ∧
          ∀ xs, dados ≠ Json.arr xs))) ∧
    (∀ saida, processar_arquivo gen conteudo = some saida →
      ∃ xs saidaL, (json_loads conteudo = some (Json.arr xs) ∨
          (json_loads conteudo = none ∧
            json_loads (tentar_corrigir_json conteudo) = some (Json.arr xs))) ∧
        validar_estrutura_dados gen (Json.arr xs) = some saidaL ∧
        saida = json_dumps (conteudo.length + 8) (Json.arr saidaL)) := by
  cases h1 : json_loads conteudo with
  | some d =>
    have hp : processar_arquivo gen conteudo =
        processaDados gen (conteudo.length + 8) d := by
      simp only [processar_arquivo, h1]
    constructor
    · rw [hp]
      constructor
      · intro hnone
        right
        exact ⟨d, Or.inl rfl, (processaDados_none_iff gen _ d).mp hnone⟩
      · intro h
        rcases h with ⟨hA, _⟩ | ⟨dados, hd, hna⟩
        · cases hA
        · rcases hd with hd | ⟨hd, _⟩
          · obtain rfl : d = dados := Option.some.inj hd
            exact (processaDados_none_iff gen _ d).mpr hna
          · cases hd
    · intro saida hsaida
      rw [hp] at hsaida
      cases d with
      | arr xs =>
        simp only [processaDados] at hsaida
        cases hval : validar_estrutura_dados gen (Json.arr xs) with
        | none => rw [hval] at hsaida; cases hsaida
        | some saidaL =>
          rw [hval] at hsaida
          refine ⟨xs, saidaL, Or.inl rfl, hval, ?_⟩
          exact (Option.some.inj hsaida).symm
      | null => simp [processaDados, validar_estrutura_dados] at hsaida
      | bool b => simp [processaDados, validar_estrutura_dados] at hsaida
      | num n => simp [processaDados, validar_estrutura_dados] at hsaida
      | str s => simp [processaDados, validar_estrutura_dados] at hsaida
      | obj campos => simp [processaDados, validar_estrutura_dados] at hsaida
  | none =>
    cases h2 : json_loads (tentar_corrigir_json conteudo) with
    | some d =>
      have hp : processar_arquivo gen conteudo =
          processaDados gen (conteudo.length + 8) d := by
        simp only [processar_arquivo, h1, h2]
      constructor
      · rw [hp]
        constructor
        · intro hnone
          right
          exact ⟨d, Or.inr ⟨rfl, rfl⟩, (processaDados_none_iff gen _ d).mp hnone⟩
        · intro h
          rcases h with ⟨_, hB⟩ | ⟨dados, hd, hna⟩
          · cases hB
          · rcases hd with hd | ⟨_, hd⟩
            · cases hd
            · obtain rfl : d = dados := Option.some.inj hd
              exact (processaDados_none_iff gen _ d).mpr hna
      · intro saida hsaida
        rw [hp] at hsaida
        cases d with
        | arr xs =>
          simp only [processaDados] at hsaida
          cases hval : validar_estrutura_dados gen (Json.arr xs) with
          | none => rw [hval] at hsaida; cases hsaida
          | some saidaL =>
            rw [hval] at hsaida
            refine ⟨xs, saidaL, Or.inr ⟨rfl, rfl⟩, hval, ?_⟩
            exact (Option.some.inj hsaida).symm
        | null => simp [processaDados, validar_estrutura_dados] at hsaida
        | bool b => simp [processaDados, validar_estrutura_dados] at hsaida
        | num n => simp [processaDados, validar_estrutura_dados] at hsaida
        | str s => simp [processaDados, validar_estrutura_dados] at hsaida
        | obj campos => simp [processaDados, validar_estrutura_dados] at hsaida
    | none =>
      have hp : processar_arquivo gen conteudo = none := by
        simp only [processar_arquivo, h1, h2]
      constructor
      · rw [hp]
        simp
      · intro saida hsaida
        rw [hp] at hsaida
        cases hsaida

set_option maxRecDepth 16384

/-- C8: the text `[{"a":1},]` fails the strict parse; one pass of the textual
repair yields `[{"a":1}]`, which parses as a JSON array; the file is
rewritten (after the structural backfill of the six required keys), and the
rewritten serialization is valid JSON — it parses back — with the trailing
comma removed (no occurrence of the comma-before-closer pattern remains). -/
theorem reparo_ida_e_volta :
    json_loads "[\x7b\"a\":1\x7d,]" = none ∧
    tentar_corrigir_json "[\x7b\"a\":1\x7d,]" = "[\x7b\"a\":1\x7d]" ∧
    json_loads "[\x7b\"a\":1\x7d]" = some (Json.arr [Json.obj [("a", Json.num 1)]]) ∧
    processar_arquivo (fun _ => "u") "[\x7b\"a\":1\x7d,]" =
      some "[\n    \x7b\n        \"a\": 1,\n        \"id\": \"u\",\n        \"titulo\": \"\",\n        \"conteudo\": \"\",\n        \"fonte\": \"\",\n        \"data\": \"\",\n        \"url\": \"\"\n    \x7d\n]" ∧
    json_loads "[\n    \x7b\n        \"a\": 1,\n        \"id\": \"u\",\n        \"titulo\": \"\",\n        \"conteudo\": \"\",\n        \"fonte\": \"\",\n        \"data\": \"\",\n        \"url\": \"\"\n    \x7d\n]" =
      some (Json.arr [Json.obj [("a", Json.num 1), ("id", Json.str "u"),
        ("titulo", Json.str ""), ("conteudo", Json.str ""), ("fonte", Json.str ""),
        ("data", Json.str ""), ("url", Json.str "")]]) ∧
    temPadrao "[\n    \x7b\n        \"a\": 1,\n        \"id\": \"u\",\n        \"titulo\": \"\",\n        \"conteudo\": \"\",\n        \"fonte\": \"\",\n        \"data\": \"\",\n        \"url\": \"\"\n    \x7d\n]".data = false := by
  have h1 : json_loads "[\x7b\"a\":1\x7d,]" = none := rfl
  have hc : tentar_corrigir_json "[\x7b\"a\":1\x7d,]" = "[\x7b\"a\":1\x7d]" := by
    simp [tentar_corrigir_json, corrigeLista, ehEspaco, ehFechamento]
  have h2 : json_loads "[\x7b\"a\":1\x7d]" =
      some (Json.arr [Json.obj [("a", Json.num 1)]]) := rfl
  have hp : processar_arquivo (fun _ => "u") "[\x7b\"a\":1\x7d,]" =
      some "[\n    \x7b\n        \"a\": 1,\n        \"id\": \"u\",\n        \"titulo\": \"\",\n        \"conteudo\": \"\",\n        \"fonte\": \"\",\n        \"data\": \"\",\n        \"url\": \"\"\n    \x7d\n]" := by
    simp only [processar_arquivo, h1, hc, h2]
    rfl
  exact ⟨h1, hc, h2, hp, rfl, rfl⟩

/-- C4 (code divergence): the validation entry point reads no command-line
argument — the target directory is derived from the script's own location —
and a missing or nonexistent directory makes `percorrer_jsons` print a
diagnostic and return normally, so the interpreter terminates the process
with exit status 0 in every case, missing directory included; the claimed
fatal non-zero usage error never happens.  (The orchestrator `main.py` passes
the directory as an argument and interrupts the pipeline only on a non-zero
return code, so the intended error contract is unreachable.) -/
theorem valida_main_status_sempre_zero :
    (valida_main (fun _ => "u") Diretorio.ausente).1 = 0 ∧
    ¬ ((valida_main (fun _ => "u") Diretorio.ausente).1 ≠ 0) ∧
    ∀ (gen : Nat → String) (dir : Diretorio), (valida_main gen dir).1 = 0 :=
  ⟨rfl, fun h => h rfl, fun _ _ => rfl⟩
